import Mathlib

/-!
Shallow embedding of `src/firmware_diff.py`, a tool that compares two
directory trees by content hash and reports Added / Removed / Modified
files.  Pure functions of the Python source become Lean functions; the
filesystem is modelled as an inductive tree of entries; the MD5 object of
`hashlib` is modelled by the byte sequence fed to it so far (its state is
a function of exactly those bytes, and `hexdigest` is determined by them);
exceptions are modelled with `Except` in a second, error-aware copy of the
pipeline.
-/

/-- A filesystem entry as discriminated by the walker: a regular file with
its content bytes, a directory with its children, a symbolic link (the
`target` field holds the entry the link chain resolves to, or `none` for a
dangling or cyclic link, matching `Path.is_file`/`is_dir` which resolve
the chain and answer `False` on failure), or an entry of any other type
(device file, socket, FIFO, ...). -/
inductive Entry : Type where
  | file (name : String) (content : List Nat)
  | dir (name : String) (children : List Entry)
  | symlink (name : String) (target : Option Entry)
  | other (name : String)

/-- The entry's own name (last path component). -/
def Entry.name : Entry → String
  | .file n _ => n
  | .dir n _ => n
  | .symlink n _ => n
  | .other n => n

/-- Resolution of the symlink chain: a symlink yields its stored resolved
target, anything else yields itself. -/
def Entry.resolve : Entry → Option Entry
  | .symlink _ t => t
  | e => some e

/-- Models `Path.is_symlink()`: true exactly on symlinks, dangling ones
included; tested by `walk` before anything else. -/
def Entry.is_symlink : Entry → Bool
  | .symlink _ _ => true
  | _ => false

/-- Models `Path.is_file()`: follows the symlink chain and asks whether
the result is a regular file (false on dangling links and on every other
entry type). -/
def Entry.is_file (e : Entry) : Bool :=
  match e.resolve with
  | some (.file _ _) => true
  | _ => false

/-- Models `Path.is_dir()`: follows the symlink chain and asks whether the
result is a directory. -/
def Entry.is_dir (e : Entry) : Bool :=
  match e.resolve with
  | some (.dir _ _) => true
  | _ => false

/-- The bytes obtained by opening the entry for reading (follows
symlinks, like `open`); `walk` only ever reaches this on genuine regular
files. -/
def Entry.contentBytes (e : Entry) : List Nat :=
  match e.resolve with
  | some (.file _ c) => c
  | _ => []

/-- The entries listed by `iterdir()` on this entry (follows symlinks,
like `iterdir`); `walk` only ever reaches this on genuine directories. -/
def Entry.children (e : Entry) : List Entry :=
  match e.resolve with
  | some (.dir _ cs) => cs
  | _ => []

theorem Entry.sizeOf_pos (e : Entry) : 0 < sizeOf e := by
  cases e <;> simp <;> omega

theorem Entry.children_sizeOf (e : Entry) : sizeOf e.children < 1 + sizeOf e := by
  cases e with
  | file n c => simp [Entry.children, Entry.resolve]
  | dir n cs => simp [Entry.children, Entry.resolve]; omega
  | symlink n t =>
    cases t with
    | none => simp [Entry.children, Entry.resolve]
    | some t' => cases t' <;> simp [Entry.children, Entry.resolve] <;> omega
  | other n => simp [Entry.children, Entry.resolve]

/-- Models `walk(dir_path)` composed with the relativization
`str(file.relative_to(root))` performed later by `get_file_hashes`: `pre`
is the root-relative prefix of the directory being iterated (`""` at the
root), and each collected file is returned as its root-relative path
string together with its content bytes (the Path handle retains both).
Per element of `iterdir()`, in source order: a symlink is skipped
(`continue`), then `is_file()` appends the element, then `is_dir()`
recurses into it. -/
def walk (pre : String) : List Entry → List (String × List Nat)
  | [] => []
  | e :: rest =>
    if e.is_symlink then
      walk pre rest
    else
      (if e.is_file then [(pre ++ e.name, e.contentBytes)] else []) ++
      (if e.is_dir then walk (pre ++ e.name ++ "/") e.children else []) ++
      walk pre rest
termination_by es => sizeOf es
decreasing_by
  all_goals simp_wf
  all_goals have hc := Entry.children_sizeOf e
  all_goals have hp := Entry.sizeOf_pos e
  all_goals omega

/-- A digest value.  The model of the `hashlib.md5` object is the byte
sequence fed to it so far (the object's state, and hence `hexdigest()`,
is a function of exactly that sequence), so the digest of a file is
represented by the byte sequence consumed by the hashing loop. -/
abbrev Digest := List Nat

/-- Models `hash.update(chunk)`: appends the chunk to the bytes fed so
far. -/
def md5_update (buf chunk : List Nat) : List Nat := buf ++ chunk

/-- Models the read loop `while chunk := f.read(chunkSize): hash.update(chunk)`:
`f.read(n)` returns the next `min n remaining` bytes of `data`, and the
loop stops on an empty (falsy) chunk — immediately when `chunkSize = 0`,
otherwise when the data is exhausted. -/
def md5Loop (buf data : List Nat) (chunkSize : Nat) : List Nat :=
  if hk : chunkSize = 0 then buf
  else if hd : data = [] then buf
  else md5Loop (md5_update buf (data.take chunkSize)) (data.drop chunkSize) chunkSize
termination_by data.length
decreasing_by
  simp_wf
  have h1 : data.length ≠ 0 := by simpa [List.length_eq_zero] using hd
  have h2 : 0 < chunkSize := Nat.pos_of_ne_zero hk
  omega

/-- Models `calc_md5(file_path)` applied to a file whose bytes are
`content`: a fresh `md5()` state fed the content in chunks of 8192
bytes. -/
def calc_md5 (content : List Nat) : Digest := md5Loop [] content 8192

/-- The value slot of the merged record: `[hashA, hashB]` with `None` for
an absent side. -/
abbrev HashPair := Option Digest × Option Digest

/-- Models the mutation `file_hashes[k][0] = v` on the insertion-ordered
dict, represented as an association list: the entry keyed `k` gets first
component `some v`. -/
def setHashA (m : List (String × HashPair)) (k : String) (v : Digest) :
    List (String × HashPair) :=
  m.map (fun p => if p.1 = k then (p.1, (some v, p.2.2)) else p)

/-- Models the mutation `file_hashes[k][1] = v`. -/
def setHashB (m : List (String × HashPair)) (k : String) (v : Digest) :
    List (String × HashPair) :=
  m.map (fun p => if p.1 = k then (p.1, (p.2.1, some v)) else p)

/-- Models the first `for` loop of `get_file_hashes`: hash every file of
tree A and store the checksum in slot 0 of its key. -/
def applyHashesA (file_paths_a : List (String × List Nat))
    (m : List (String × HashPair)) : List (String × HashPair) :=
  file_paths_a.foldl (fun m f => setHashA m f.1 (calc_md5 f.2)) m

/-- Models the second `for` loop of `get_file_hashes`: hash every file of
tree B and store the checksum in slot 1 of its key. -/
def applyHashesB (file_paths_b : List (String × List Nat))
    (m : List (String × HashPair)) : List (String × HashPair) :=
  file_paths_b.foldl (fun m f => setHashB m f.1 (calc_md5 f.2)) m

/-- Models `get_file_hashes(file_paths_a, file_paths_b, roots)` with the
relativization already fused into the walker's output: the key set is the
sorted union `sorted(set(names_a) | set(names_b))` (modelled as the
insertion sort of the deduplicated concatenation, which is exactly the
sorted list of the distinct names), the dict is initialised with
`[None, None]` per key in that (insertion) order, and the two hashing
loops fill the slots. -/
def get_file_hashes (file_paths_a file_paths_b : List (String × List Nat)) :
    List (String × HashPair) :=
  let dir_a_file_names := file_paths_a.map Prod.fst
  let dir_b_file_names := file_paths_b.map Prod.fst
  let file_names := List.insertionSort (fun x y : String => x ≤ y)
    ((dir_a_file_names ++ dir_b_file_names).dedup)
  let file_hashes := file_names.map (fun n => (n, ((none, none) : HashPair)))
  applyHashesB file_paths_b (applyHashesA file_paths_a file_hashes)

/-- The classification attached to an emitted change record. -/
inductive ChangeType : Type where
  | Added
  | Removed
  | Modified
deriving DecidableEq, Repr

/-- One record of the `changes` dict: `{"Change type": ..., "First hash":
..., "Second hash": ...}`. -/
structure ChangeRecord : Type where
  change_type : ChangeType
  first_hash : Option Digest
  second_hash : Option Digest
deriving DecidableEq, Repr

/-- Models `differ(file_hashes_dict)` up to the final `pprint`: iterate
the dict in its insertion order and, per entry, run the `if`/`elif`
chain of the source — first hash `None` emits Added, else second hash
`None` emits Removed, else unequal hashes emit Modified, else nothing. -/
def differ : List (String × HashPair) → List (String × ChangeRecord)
  | [] => []
  | (name, (a, b)) :: rest =>
    if a = none then (name, ⟨.Added, a, b⟩) :: differ rest
    else if b = none then (name, ⟨.Removed, a, b⟩) :: differ rest
    else if a ≠ b then (name, ⟨.Modified, a, b⟩) :: differ rest
    else differ rest

/-- The exceptions the run can abort with: `FileNotFoundError` from
`iterdir()` on a missing root, `PermissionError` from `iterdir()` on an
unreadable directory, `IOError`/`OSError` from `open`/`read` during
hashing. -/
inductive FsError : Type where
  | notFoundError
  | permissionError
  | ioError
deriving DecidableEq, Repr

/-- A filesystem entry for the error-aware copy of the pipeline: a file
whose content is `none` when opening or reading it fails, a directory
whose child list is `none` when `iterdir()` on it fails, a symlink or an
entry of another type (both skipped by the walker, so their innards are
irrelevant). -/
inductive EntryE : Type where
  | file (name : String) (content : Option (List Nat))
  | dir (name : String) (children : Option (List EntryE))
  | symlink (name : String)
  | other (name : String)

/-- Error-aware copy of `walk` (relativization fused as in `walk`): a
collected file is returned with its readable bytes or with `none` when a
later read will fail; `iterdir()` on an unreadable directory raises
`PermissionError`, which propagates and discards everything. -/
def walkE (pre : String) : List EntryE → Except FsError (List (String × Option (List Nat)))
  | [] => .ok []
  | .file n c :: rest =>
    match walkE pre rest with
    | .error e => .error e
    | .ok tail => .ok ((pre ++ n, c) :: tail)
  | .dir _ none :: _ => .error .permissionError
  | .dir n (some cs) :: rest =>
    match walkE (pre ++ n ++ "/") cs with
    | .error e => .error e
    | .ok sub =>
      match walkE pre rest with
      | .error e => .error e
      | .ok tail => .ok (sub ++ tail)
  | .symlink _ :: rest => walkE pre rest
  | .other _ :: rest => walkE pre rest

/-- Models `walk(root)` on a root path: `iterdir()` on a nonexistent root
raises `FileNotFoundError`. -/
def walkRootE (root : Option (List EntryE)) :
    Except FsError (List (String × Option (List Nat))) :=
  match root with
  | none => .error .notFoundError
  | some es => walkE "" es

/-- Error-aware `calc_md5`: an unreadable file raises `IOError` when
opened or read, otherwise the digest of its bytes is computed. -/
def calc_md5E (content : Option (List Nat)) : Except FsError Digest :=
  match content with
  | none => .error .ioError
  | some bytes => .ok (calc_md5 bytes)

/-- Error-aware first hashing loop of `get_file_hashes`: the first failed
hash aborts the loop with its exception. -/
def hashLoopA (fa : List (String × Option (List Nat)))
    (m : List (String × HashPair)) : Except FsError (List (String × HashPair)) :=
  match fa with
  | [] => .ok m
  | f :: rest =>
    match calc_md5E f.2 with
    | .error e => .error e
    | .ok checksum => hashLoopA rest (setHashA m f.1 checksum)

/-- Error-aware second hashing loop of `get_file_hashes`. -/
def hashLoopB (fb : List (String × Option (List Nat)))
    (m : List (String × HashPair)) : Except FsError (List (String × HashPair)) :=
  match fb with
  | [] => .ok m
  | f :: rest =>
    match calc_md5E f.2 with
    | .error e => .error e
    | .ok checksum => hashLoopB rest (setHashB m f.1 checksum)

/-- Error-aware `get_file_hashes`: the key set and initial dict are built
from the names (no I/O), then the two hashing loops run, each able to
abort the whole call. -/
def get_file_hashesE (fa fb : List (String × Option (List Nat))) :
    Except FsError (List (String × HashPair)) :=
  let file_names := List.insertionSort (fun x y : String => x ≤ y)
    ((fa.map Prod.fst ++ fb.map Prod.fst).dedup)
  let file_hashes := file_names.map (fun n => (n, ((none, none) : HashPair)))
  match hashLoopA fa file_hashes with
  | .error e => .error e
  | .ok m => hashLoopB fb m

/-- Models `main()`: walk root A, then root B, then hash everything, then
diff; any exception raised on the way propagates out before `differ` is
reached, and the change set (printed by `pprint` at the very end of
`differ`) exists only in the success case. -/
def mainE (root_a root_b : Option (List EntryE)) :
    Except FsError (List (String × ChangeRecord)) :=
  match walkRootE root_a with
  | .error e => .error e
  | .ok dir_a_files =>
    match walkRootE root_b with
    | .error e => .error e
    | .ok dir_b_files =>
      match get_file_hashesE dir_a_files dir_b_files with
      | .error e => .error e
      | .ok hash_dict => .ok (differ hash_dict)

/-- What the usage guard prints to standard output on misuse. -/
def usage_message : String :=
  "USAGE: firmware_diff.py <Older firmware fs dir> <Newer firmware fs dir>"

/-- The observable outcome of one invocation: a usage message printed to
standard output, an abort with an uncaught exception, or the printed
change set. -/
inductive ProgResult : Type where
  | usage (message : String)
  | aborted (e : FsError)
  | printed (changes : List (String × ChangeRecord))
deriving DecidableEq, Repr

/-- Models the `__main__` guard plus `main()`: `argv` is the full argument
vector (script name included) and `fs` maps a root path string to its
tree, or to `none` when no such directory exists.  With an argument count
other than 3 only the usage line is printed and nothing else runs;
otherwise `main()` runs on `argv[1]` and `argv[2]`. -/
def runProgram (argv : List String) (fs : String → Option (List EntryE)) :
    ProgResult :=
  if argv.length ≠ 3 then .usage usage_message
  else
    match mainE (fs (argv.getD 1 "")) (fs (argv.getD 2 "")) with
    | .error e => .aborted e
    | .ok changes => .printed changes

/-- A fuel-indexed variant of `walk` that charges one unit of stack per
call and gives up with `none` when the fuel runs out: the reference's
recursion has no bound of its own, and `walk` terminating on every finite
tree is expressed by `walkFuel` succeeding once the fuel reaches the tree
size. -/
def walkFuel : Nat → String → List Entry → Option (List (String × List Nat))
  | 0, _, _ => none
  | _ + 1, _, [] => some []
  | fuel + 1, pre, e :: rest =>
    if e.is_symlink then
      walkFuel fuel pre rest
    else
      match (if e.is_dir then walkFuel fuel (pre ++ e.name ++ "/") e.children
             else some []) with
      | none => none
      | some sub =>
        match walkFuel fuel pre rest with
        | none => none
        | some tail =>
          some ((if e.is_file then [(pre ++ e.name, e.contentBytes)] else []) ++
            sub ++ tail)

theorem md5Loop_eq_append (k : Nat) (hk : k ≠ 0) :
    ∀ (data buf : List Nat), md5Loop buf data k = buf ++ data
  | data, buf => by
    by_cases hd : data = []
    · subst hd; rw [md5Loop]; simp [hk]
    · rw [md5Loop, dif_neg hk, dif_neg hd]
      rw [md5Loop_eq_append k hk (data.drop k) (md5_update buf (data.take k))]
      rw [md5_update, List.append_assoc, List.take_append_drop]
termination_by data => data.length
decreasing_by
  simp_wf
  have h1 : data.length ≠ 0 := by simpa [List.length_eq_zero] using hd
  have h2 : 0 < k := Nat.pos_of_ne_zero hk
  omega

theorem calc_md5_eq (content : List Nat) : calc_md5 content = content := by
  simpa using md5Loop_eq_append 8192 (by omega) content []

theorem calc_md5_fun_eq : calc_md5 = fun content => content :=
  funext calc_md5_eq

theorem setHashA_keys (m : List (String × HashPair)) (k : String) (v : Digest) :
    (setHashA m k v).map Prod.fst = m.map Prod.fst := by
  induction m with
  | nil => rfl
  | cons p t ih =>
    simp only [setHashA, List.map_cons] at ih ⊢
    by_cases h : p.1 = k <;> simp [h, ih]

theorem setHashB_keys (m : List (String × HashPair)) (k : String) (v : Digest) :
    (setHashB m k v).map Prod.fst = m.map Prod.fst := by
  induction m with
  | nil => rfl
  | cons p t ih =>
    simp only [setHashB, List.map_cons] at ih ⊢
    by_cases h : p.1 = k <;> simp [h, ih]

theorem applyHashesA_cons (f : String × List Nat) (t : List (String × List Nat))
    (m : List (String × HashPair)) :
    applyHashesA (f :: t) m = applyHashesA t (setHashA m f.1 (calc_md5 f.2)) := rfl

theorem applyHashesB_cons (f : String × List Nat) (t : List (String × List Nat))
    (m : List (String × HashPair)) :
    applyHashesB (f :: t) m = applyHashesB t (setHashB m f.1 (calc_md5 f.2)) := rfl

theorem applyHashesA_keys (l : List (String × List Nat)) :
    ∀ m, (applyHashesA l m).map Prod.fst = m.map Prod.fst := by
  induction l with
  | nil => intro m; rfl
  | cons f t ih =>
    intro m
    rw [applyHashesA_cons, ih, setHashA_keys]

theorem applyHashesB_keys (l : List (String × List Nat)) :
    ∀ m, (applyHashesB l m).map Prod.fst = m.map Prod.fst := by
  induction l with
  | nil => intro m; rfl
  | cons f t ih =>
    intro m
    rw [applyHashesB_cons, ih, setHashB_keys]

theorem get_file_hashes_keys (fa fb : List (String × List Nat)) :
    (get_file_hashes fa fb).map Prod.fst =
      List.insertionSort (fun x y : String => x ≤ y)
        ((fa.map Prod.fst ++ fb.map Prod.fst).dedup) := by
  rw [get_file_hashes, applyHashesB_keys, applyHashesA_keys, List.map_map]
  have hid : (Prod.fst ∘ fun n : String => (n, ((none, none) : HashPair))) = id := rfl
  rw [hid, List.map_id]

theorem file_names_sorted (l : List String) :
    List.Sorted (fun x y : String => x ≤ y)
      (List.insertionSort (fun x y : String => x ≤ y) l) :=
  List.sorted_insertionSort _ l

theorem file_names_nodup (l : List String) :
    (List.insertionSort (fun x y : String => x ≤ y) l.dedup).Nodup :=
  (List.perm_insertionSort _ _).nodup_iff.mpr l.nodup_dedup

theorem walk_nil (pre : String) : walk pre [] = [] := by rw [walk]

theorem walk_cons (pre : String) (e : Entry) (rest : List Entry) :
    walk pre (e :: rest) =
      if e.is_symlink then walk pre rest
      else
        (if e.is_file then [(pre ++ e.name, e.contentBytes)] else []) ++
        (if e.is_dir then walk (pre ++ e.name ++ "/") e.children else []) ++
        walk pre rest := by
  rw [walk]

theorem differ_keys_sublist (m : List (String × HashPair)) :
    ((differ m).map Prod.fst).Sublist (m.map Prod.fst) := by
  induction m with
  | nil => simp [differ]
  | cons e t ih =>
    obtain ⟨name, a, b⟩ := e
    rw [differ]
    split
    · simpa using ih.cons₂ name
    · split
      · simpa using ih.cons₂ name
      · split
        · simpa using ih.cons₂ name
        · simpa using ih.cons name

/-- Claim C6: the hasher's chunked, streaming computation is equivalent to
hashing the whole content at once — for every byte sequence and every
positive chunk size, the read loop feeds exactly the full byte stream in
order into the hash state, so the resulting digest equals that of a single
`update` with the whole content, and the 8192-byte reference chunk size
does not affect the output. -/
theorem chunked_hash_eq_whole (content : List Nat) (k : Nat) (hk : 0 < k) :
    md5Loop [] content k = md5_update [] content ∧
    calc_md5 content = md5_update [] content := by
  constructor
  · rw [md5Loop_eq_append k (by omega) content, md5_update]
  · rw [calc_md5, md5Loop_eq_append 8192 (by omega) content, md5_update]

theorem chunked_hash_eq_whole_witness :
    0 < 1 ∧
      (md5Loop [] [7, 8, 9] 1 = md5_update [] [7, 8, 9] ∧
        calc_md5 [7, 8, 9] = md5_update [] [7, 8, 9]) :=
  ⟨by decide, chunked_hash_eq_whole [7, 8, 9] 1 (by decide)⟩

/-- Claim C2: the merged digest mapping's key domain is exactly the union
of the relativized paths of the files found in each tree, with no
duplicate keys, so each file present in either tree has exactly one entry
in the merged record (and is hence classified exactly once, possibly
implicitly as unchanged). -/
theorem merged_key_domain_union (ta tb : List Entry) :
    ((get_file_hashes (walk "" ta) (walk "" tb)).map Prod.fst).Nodup ∧
    ∀ p : String,
      p ∈ (get_file_hashes (walk "" ta) (walk "" tb)).map Prod.fst ↔
        (p ∈ (walk "" ta).map Prod.fst ∨ p ∈ (walk "" tb).map Prod.fst) := by
  constructor
  · rw [get_file_hashes_keys]
    exact file_names_nodup _
  · intro p
    rw [get_file_hashes_keys, (List.perm_insertionSort _ _).mem_iff,
      List.mem_dedup, List.mem_append]

/-- Claim C5: the change records produced by the differ are enumerated in
strictly increasing lexicographic order of the relative path string, for
every pair of input trees. -/
theorem differ_output_sorted (ta tb : List Entry) :
    List.Sorted (fun x y : String => x < y)
      ((differ (get_file_hashes (walk "" ta) (walk "" tb))).map Prod.fst) := by
  have hsorted : List.Sorted (fun x y : String => x ≤ y)
      ((get_file_hashes (walk "" ta) (walk "" tb)).map Prod.fst) := by
    rw [get_file_hashes_keys]; exact file_names_sorted _
  have hnodup : ((get_file_hashes (walk "" ta) (walk "" tb)).map Prod.fst).Nodup := by
    rw [get_file_hashes_keys]; exact file_names_nodup _
  exact List.Pairwise.sublist (differ_keys_sublist _) (hsorted.lt_of_le hnodup)

/-- Claim C3: the walker discriminates each entry by is-symlink, then
is-regular-file, then is-directory, in that priority order: a symlink is
skipped outright and contributes no entry — even a symlink that resolves
to a regular file or to a directory and therefore passes the later
tests — and an entry of any other type (device file, socket, FIFO, ...)
is silently excluded. -/
theorem walker_type_discrimination (pre n : String) (target : Option Entry)
    (rest : List Entry) :
    Entry.is_symlink (Entry.symlink n target) = true ∧
    walk pre (Entry.symlink n target :: rest) = walk pre rest ∧
    walk pre (Entry.other n :: rest) = walk pre rest ∧
    (∀ m c, Entry.is_file (Entry.symlink n (some (Entry.file m c))) = true) ∧
    (∀ m cs, Entry.is_dir (Entry.symlink n (some (Entry.dir m cs))) = true) := by
  refine ⟨rfl, ?_, ?_, fun m c => rfl, fun m cs => rfl⟩
  · rw [walk_cons]; simp [Entry.is_symlink]
  · rw [walk_cons]
    simp [Entry.is_symlink, Entry.is_file, Entry.is_dir, Entry.resolve]

/-- Claim C10: the recursive walker terminates on every finite directory
tree — the fuel-indexed variant, which charges one stack frame per call
and fails with `none` on fuel exhaustion, succeeds and agrees with `walk`
as soon as the fuel reaches the size of the tree, and symlinks are never
descended into (their subtrees cost no fuel). -/
theorem walk_terminates (fuel : Nat) :
    ∀ (pre : String) (es : List Entry), sizeOf es ≤ fuel →
      walkFuel fuel pre es = some (walk pre es) := by
  induction fuel with
  | zero =>
    intro pre es h
    exfalso
    cases es <;> simp at h
  | succ f ih =>
    intro pre es h
    match es with
    | [] => rw [walkFuel, walk_nil]
    | e :: rest =>
      have hrest : sizeOf rest ≤ f := by
        simp at h
        have := Entry.sizeOf_pos e
        omega
      have hch : sizeOf e.children ≤ f := by
        have := Entry.children_sizeOf e
        simp at h
        omega
      rw [walkFuel, walk_cons]
      by_cases hs : e.is_symlink = true
      · simp [hs, ih pre rest hrest]
      · by_cases hd : e.is_dir = true
        · simp [hs, hd, ih _ _ hch, ih _ _ hrest]
        · simp [hs, hd, ih _ _ hrest]

theorem walk_terminates_witness :
    sizeOf ([Entry.dir "d" [Entry.file "x" [1]],
        Entry.symlink "s" (some (Entry.dir "d" [Entry.file "x" [1]]))] : List Entry) ≤ 1000 ∧
    walkFuel 1000 ""
        [Entry.dir "d" [Entry.file "x" [1]],
          Entry.symlink "s" (some (Entry.dir "d" [Entry.file "x" [1]]))] =
      some (walk ""
        [Entry.dir "d" [Entry.file "x" [1]],
          Entry.symlink "s" (some (Entry.dir "d" [Entry.file "x" [1]]))]) :=
  ⟨by decide, walk_terminates 1000 ""
    [Entry.dir "d" [Entry.file "x" [1]],
      Entry.symlink "s" (some (Entry.dir "d" [Entry.file "x" [1]]))] (by decide)⟩

/-- Claim C9: invoked with an argument count other than exactly two roots
(three entries in `argv`, the script name included), the program prints
the usage message to standard output and performs no other action — the
result carries no walk, no hash and no diff. -/
theorem usage_on_wrong_argc (argv : List String)
    (fs : String → Option (List EntryE)) (h : argv.length ≠ 3) :
    runProgram argv fs = ProgResult.usage usage_message := by
  rw [runProgram, if_pos h]

theorem usage_on_wrong_argc_witness :
    (["firmware_diff.py"] : List String).length ≠ 3 ∧
    runProgram ["firmware_diff.py"] (fun _ => none) =
      ProgResult.usage usage_message :=
  ⟨by decide, usage_on_wrong_argc ["firmware_diff.py"] (fun _ => none) (by decide)⟩

/-- Claim C8: any error raised while walking or hashing aborts the run
before any change-set output exists — the run either ends in an error
carrying no records at all, or every stage of the comparison of both
trees completed and the output is the full diff of the completed merged
record. -/
theorem no_partial_output (root_a root_b : Option (List EntryE)) :
    (∃ e, mainE root_a root_b = Except.error e ∧
      ∀ out, mainE root_a root_b ≠ Except.ok out) ∨
    (∃ fa fb m, walkRootE root_a = Except.ok fa ∧
      walkRootE root_b = Except.ok fb ∧
      get_file_hashesE fa fb = Except.ok m ∧
      mainE root_a root_b = Except.ok (differ m)) := by
  cases h1 : walkRootE root_a with
  | error e =>
    left
    exact ⟨e, by simp [mainE, h1], fun out => by simp [mainE, h1]⟩
  | ok fa =>
    cases h2 : walkRootE root_b with
    | error e =>
      left
      exact ⟨e, by simp [mainE, h1, h2], fun out => by simp [mainE, h1, h2]⟩
    | ok fb =>
      cases h3 : get_file_hashesE fa fb with
      | error e =>
        left
        exact ⟨e, by simp [mainE, h1, h2, h3], fun out => by simp [mainE, h1, h2, h3]⟩
      | ok m =>
        right
        exact ⟨fa, fb, m, rfl, rfl, h3, by simp [mainE, h1, h2, h3]⟩

theorem setHashB_mem_fst {m : List (String × HashPair)} {k : String}
    {v : Digest} {p : String} {x y : Option Digest}
    (h : (p, (x, y)) ∈ setHashB m k v) : ∃ y0, (p, (x, y0)) ∈ m := by
  rw [setHashB, List.mem_map] at h
  obtain ⟨⟨q1, qa, qb⟩, hq, hu⟩ := h
  by_cases hqk : q1 = k
  · subst hqk
    simp at hu
    obtain ⟨h1, h2, _⟩ := hu
    refine ⟨qb, ?_⟩
    subst h1; subst h2
    exact hq
  · simp [hqk] at hu
    obtain ⟨h1, h2, h3⟩ := hu
    refine ⟨y, ?_⟩
    subst h1; subst h2; subst h3
    exact hq

theorem setHashA_mem_of_key {m : List (String × HashPair)} {k : String}
    {v : Digest} {p : String} {x y : Option Digest} (hpk : p = k)
    (h : (p, (x, y)) ∈ setHashA m k v) : x = some v := by
  rw [setHashA, List.mem_map] at h
  obtain ⟨⟨q1, qa, qb⟩, hq, hu⟩ := h
  by_cases hqk : q1 = k
  · subst hqk
    simp at hu
    exact hu.2.1.symm
  · simp [hqk] at hu
    exact absurd (hu.1.trans hpk) hqk

theorem setHashB_mem_of_key {m : List (String × HashPair)} {k : String}
    {v : Digest} {p : String} {x y : Option Digest} (hpk : p = k)
    (h : (p, (x, y)) ∈ setHashB m k v) : y = some v := by
  rw [setHashB, List.mem_map] at h
  obtain ⟨⟨q1, qa, qb⟩, hq, hu⟩ := h
  by_cases hqk : q1 = k
  · subst hqk
    simp at hu
    exact hu.2.2.symm
  · simp [hqk] at hu
    exact absurd (hu.1.trans hpk) hqk

theorem setHashA_pres_fst {m : List (String × HashPair)} {k : String}
    {v : Digest} {p : String} (H : ∀ x y, (p, (x, y)) ∈ m → x ≠ none) :
    ∀ x y, (p, (x, y)) ∈ setHashA m k v → x ≠ none := by
  intro x y h
  rw [setHashA, List.mem_map] at h
  obtain ⟨⟨q1, qa, qb⟩, hq, hu⟩ := h
  by_cases hqk : q1 = k
  · subst hqk
    simp at hu
    rw [← hu.2.1]
    exact Option.some_ne_none v
  · simp [hqk] at hu
    obtain ⟨h1, h2, h3⟩ := hu
    subst h1; subst h2; subst h3
    exact H _ _ hq

theorem setHashB_pres_snd {m : List (String × HashPair)} {k : String}
    {v : Digest} {p : String} (H : ∀ x y, (p, (x, y)) ∈ m → y ≠ none) :
    ∀ x y, (p, (x, y)) ∈ setHashB m k v → y ≠ none := by
  intro x y h
  rw [setHashB, List.mem_map] at h
  obtain ⟨⟨q1, qa, qb⟩, hq, hu⟩ := h
  by_cases hqk : q1 = k
  · subst hqk
    simp at hu
    rw [← hu.2.2]
    exact Option.some_ne_none v
  · simp [hqk] at hu
    obtain ⟨h1, h2, h3⟩ := hu
    subst h1; subst h2; subst h3
    exact H _ _ hq

theorem applyHashesA_pres_fst {l : List (String × List Nat)} {p : String} :
    ∀ m, (∀ x y, (p, (x, y)) ∈ m → x ≠ none) →
      ∀ x y, (p, (x, y)) ∈ applyHashesA l m → x ≠ none := by
  induction l with
  | nil => intro m H x y h; exact H x y h
  | cons f t ih =>
    intro m H x y h
    rw [applyHashesA_cons] at h
    exact ih _ (setHashA_pres_fst H) x y h

theorem applyHashesB_pres_snd {l : List (String × List Nat)} {p : String} :
    ∀ m, (∀ x y, (p, (x, y)) ∈ m → y ≠ none) →
      ∀ x y, (p, (x, y)) ∈ applyHashesB l m → y ≠ none := by
  induction l with
  | nil => intro m H x y h; exact H x y h
  | cons f t ih =>
    intro m H x y h
    rw [applyHashesB_cons] at h
    exact ih _ (setHashB_pres_snd H) x y h

theorem applyHashesB_mem_fst {l : List (String × List Nat)} {p : String}
    {x y : Option Digest} :
    ∀ m, (p, (x, y)) ∈ applyHashesB l m → ∃ y0, (p, (x, y0)) ∈ m := by
  induction l with
  | nil => intro m h; exact ⟨y, h⟩
  | cons f t ih =>
    intro m h
    rw [applyHashesB_cons] at h
    obtain ⟨y1, h1⟩ := ih _ h
    exact setHashB_mem_fst h1

theorem applyHashesA_filled {l : List (String × List Nat)} {p : String}
    (hp : p ∈ l.map Prod.fst) :
    ∀ m x y, (p, (x, y)) ∈ applyHashesA l m → x ≠ none := by
  induction l with
  | nil => simp at hp
  | cons f t ih =>
    intro m x y h
    rw [applyHashesA_cons] at h
    by_cases hpt : p ∈ t.map Prod.fst
    · exact ih hpt _ x y h
    · have hpf : p = f.1 := by
        simp only [List.map_cons, List.mem_cons] at hp
        exact hp.resolve_right hpt
      refine applyHashesA_pres_fst _ ?_ x y h
      intro x' y' h'
      rw [setHashA_mem_of_key hpf h']
      exact Option.some_ne_none _

theorem applyHashesB_filled {l : List (String × List Nat)} {p : String}
    (hp : p ∈ l.map Prod.fst) :
    ∀ m x y, (p, (x, y)) ∈ applyHashesB l m → y ≠ none := by
  induction l with
  | nil => simp at hp
  | cons f t ih =>
    intro m x y h
    rw [applyHashesB_cons] at h
    by_cases hpt : p ∈ t.map Prod.fst
    · exact ih hpt _ x y h
    · have hpf : p = f.1 := by
        simp only [List.map_cons, List.mem_cons] at hp
        exact hp.resolve_right hpt
      refine applyHashesB_pres_snd _ ?_ x y h
      intro x' y' h'
      rw [setHashB_mem_of_key hpf h']
      exact Option.some_ne_none _

theorem merged_nonabsent (fa fb : List (String × List Nat)) (p : String)
    (x y : Option Digest) (h : (p, (x, y)) ∈ get_file_hashes fa fb) :
    x ≠ none ∨ y ≠ none := by
  have hp : p ∈ (get_file_hashes fa fb).map Prod.fst :=
    List.mem_map_of_mem Prod.fst h
  rw [get_file_hashes_keys, (List.perm_insertionSort _ _).mem_iff,
    List.mem_dedup, List.mem_append] at hp
  rw [get_file_hashes] at h
  rcases hp with hpa | hpb
  · left
    obtain ⟨y0, h0⟩ := applyHashesB_mem_fst _ h
    exact applyHashesA_filled hpa _ x y0 h0
  · right
    exact applyHashesB_filled hpb _ x y h

/-- Claim C4: every relative path in the merged record has at least one
non-absent digest, and absence is the distinguished marker `none`, which
is never equal to `some d` for any digest `d`, so absence and a hash can
never be confused. -/
theorem merged_record_invariant (fa fb : List (String × List Nat))
    (p : String) (x y : Option Digest)
    (h : (p, (x, y)) ∈ get_file_hashes fa fb) :
    (x ≠ none ∨ y ≠ none) ∧ ∀ d : Digest, (none : Option Digest) ≠ some d :=
  ⟨merged_nonabsent fa fb p x y h, fun _ h' => Option.noConfusion h'⟩

theorem merged_record_invariant_witness :
    (("a", ((some [49] : Option Digest), (none : Option Digest))) ∈
      get_file_hashes [("a", [49])] []) ∧
    ((some [49] : Option Digest) ≠ none ∨ (none : Option Digest) ≠ none) :=
  ⟨by simp only [get_file_hashes, applyHashesA, applyHashesB, calc_md5_fun_eq]; decide,
    (merged_record_invariant [("a", [49])] [] "a" (some [49]) none
      (by simp only [get_file_hashes, applyHashesA, applyHashesB,
        calc_md5_fun_eq]; decide)).1⟩

theorem differ_keys_mem {m : List (String × HashPair)} {p : String}
    {r : ChangeRecord} (h : (p, r) ∈ differ m) : p ∈ m.map Prod.fst :=
  (differ_keys_sublist m).subset (List.mem_map_of_mem Prod.fst h)

theorem differ_mem_char :
    ∀ (m : List (String × HashPair)), (m.map Prod.fst).Nodup →
    ∀ (p : String) (x y : Option Digest), (p, (x, y)) ∈ m →
    ∀ (r : ChangeRecord),
      ((p, r) ∈ differ m ↔
        (x = none ∧ r = ⟨.Added, x, y⟩) ∨
        (x ≠ none ∧ y = none ∧ r = ⟨.Removed, x, y⟩) ∨
        (x ≠ none ∧ y ≠ none ∧ x ≠ y ∧ r = ⟨.Modified, x, y⟩)) := by
  intro m
  induction m with
  | nil => intro _ p x y hm; simp at hm
  | cons e t ih =>
    obtain ⟨q, a, b⟩ := e
    intro hnd p x y hm r
    simp only [List.map_cons, List.nodup_cons] at hnd
    obtain ⟨hq, hndt⟩ := hnd
    by_cases hpq : p = q
    · subst hpq
      have hxy : x = a ∧ y = b := by
        rcases List.mem_cons.mp hm with heq | hmem
        · simpa using heq
        · exact absurd (List.mem_map_of_mem Prod.fst hmem) hq
      obtain ⟨hxa, hyb⟩ := hxy
      subst hxa; subst hyb
      have hnotmem : ∀ r', ((p, r') ∈ differ t) = False := by
        intro r'
        simp only [eq_iff_iff, iff_false]
        intro hr'
        exact hq (differ_keys_mem hr')
      rw [differ]
      by_cases hx : x = none
      · rw [if_pos hx]
        simp [List.mem_cons, hnotmem, hx]
      · rw [if_neg hx]
        by_cases hy : y = none
        · rw [if_pos hy]
          simp [List.mem_cons, hnotmem, hx, hy]
        · rw [if_neg hy]
          by_cases hxy : x = y
          · rw [if_neg (by simpa using hxy)]
            simp [List.mem_cons, hnotmem, hx, hy, hxy]
          · rw [if_pos hxy]
            simp [List.mem_cons, hnotmem, hx, hy, hxy]
    · have hmem : (p, (x, y)) ∈ t := by
        rcases List.mem_cons.mp hm with heq | h
        · have heq' : p = q ∧ x = a ∧ y = b := by simpa using heq
          exact absurd heq'.1 hpq
        · exact h
      rw [differ]
      split
      · simp [List.mem_cons, Prod.mk.injEq, hpq, ih hndt p x y hmem r]
      · split
        · simp [List.mem_cons, Prod.mk.injEq, hpq, ih hndt p x y hmem r]
        · split
          · simp [List.mem_cons, Prod.mk.injEq, hpq, ih hndt p x y hmem r]
          · exact ih hndt p x y hmem r

/-- Claim C1: for every relative path in the merged record, the differ
emits an Added record exactly when the first digest is absent and the
second present, a Removed record exactly when the first is present and
the second absent, a Modified record exactly when both are present and
differ, and no record at all exactly when both digests are present and
equal. -/
theorem differ_classification (fa fb : List (String × List Nat))
    (p : String) (x y : Option Digest)
    (h : (p, (x, y)) ∈ get_file_hashes fa fb) :
    (((p, ⟨.Added, x, y⟩) ∈ differ (get_file_hashes fa fb)) ↔
      (x = none ∧ y ≠ none)) ∧
    (((p, ⟨.Removed, x, y⟩) ∈ differ (get_file_hashes fa fb)) ↔
      (x ≠ none ∧ y = none)) ∧
    (((p, ⟨.Modified, x, y⟩) ∈ differ (get_file_hashes fa fb)) ↔
      (x ≠ none ∧ y ≠ none ∧ x ≠ y)) ∧
    ((∀ r, (p, r) ∉ differ (get_file_hashes fa fb)) ↔
      (∃ d, x = some d ∧ y = some d)) := by
  have hinv := merged_nonabsent fa fb p x y h
  have hnd : ((get_file_hashes fa fb).map Prod.fst).Nodup := by
    rw [get_file_hashes_keys]
    exact file_names_nodup _
  have hchar := differ_mem_char (get_file_hashes fa fb) hnd p x y h
  refine ⟨?_, ?_, ?_, ?_⟩
  · rw [hchar]
    constructor
    · rintro (⟨hx, _⟩ | ⟨_, _, hr⟩ | ⟨_, _, _, hr⟩)
      · exact ⟨hx, hinv.resolve_left (by simp [hx])⟩
      · simp at hr
      · simp at hr
    · rintro ⟨hx, _⟩
      exact Or.inl ⟨hx, rfl⟩
  · rw [hchar]
    constructor
    · rintro (⟨_, hr⟩ | ⟨hx, hy, _⟩ | ⟨_, _, _, hr⟩)
      · simp at hr
      · exact ⟨hx, hy⟩
      · simp at hr
    · rintro ⟨hx, hy⟩
      exact Or.inr (Or.inl ⟨hx, hy, rfl⟩)
  · rw [hchar]
    constructor
    · rintro (⟨_, hr⟩ | ⟨_, _, hr⟩ | ⟨hx, hy, hxy, _⟩)
      · simp at hr
      · simp at hr
      · exact ⟨hx, hy, hxy⟩
    · rintro ⟨hx, hy, hxy⟩
      exact Or.inr (Or.inr ⟨hx, hy, hxy, rfl⟩)
  · constructor
    · intro hno
      by_cases hx : x = none
      · exact absurd ((hchar _).mpr (Or.inl ⟨hx, rfl⟩)) (hno _)
      · by_cases hy : y = none
        · exact absurd ((hchar _).mpr (Or.inr (Or.inl ⟨hx, hy, rfl⟩))) (hno _)
        · by_cases hxy : x = y
          · obtain ⟨d, hd⟩ := Option.ne_none_iff_exists'.mp hx
            exact ⟨d, hd, by rw [← hxy]; exact hd⟩
          · exact absurd ((hchar _).mpr
              (Or.inr (Or.inr ⟨hx, hy, hxy, rfl⟩))) (hno _)
    · rintro ⟨d, hx, hy⟩ r hr
      rcases (hchar r).mp hr with ⟨h1, _⟩ | ⟨_, h2, _⟩ | ⟨_, _, h3, _⟩
      · rw [hx] at h1
        simp at h1
      · rw [hy] at h2
        simp at h2
      · exact h3 (hx.trans hy.symm)

theorem differ_classification_witness :
    (("a", (some (calc_md5 [49]), some (calc_md5 [51]))) ∈
      get_file_hashes [("a", [49])] [("a", [51])]) ∧
    ((("a", ⟨.Modified, some (calc_md5 [49]), some (calc_md5 [51])⟩) ∈
        differ (get_file_hashes [("a", [49])] [("a", [51])])) ↔
      (some (calc_md5 [49]) ≠ none ∧ some (calc_md5 [51]) ≠ none ∧
        some (calc_md5 [49]) ≠ some (calc_md5 [51]))) :=
  ⟨by simp only [get_file_hashes, applyHashesA, applyHashesB, calc_md5_fun_eq]; decide,
    (differ_classification [("a", [49])] [("a", [51])] "a"
      (some (calc_md5 [49])) (some (calc_md5 [51]))
      (by simp only [get_file_hashes, applyHashesA, applyHashesB,
        calc_md5_fun_eq]; decide)).2.2.1⟩

theorem setHashA_comm (m : List (String × HashPair)) (k₁ k₂ : String)
    (v₁ v₂ : Digest) (hk : k₁ ≠ k₂) :
    setHashA (setHashA m k₁ v₁) k₂ v₂ = setHashA (setHashA m k₂ v₂) k₁ v₁ := by
  induction m with
  | nil => rfl
  | cons p t ih =>
    simp only [setHashA, List.map_cons] at ih ⊢
    by_cases h1 : p.1 = k₁
    · have h2 : ¬(p.1 = k₂) := fun hc => hk (h1.symm.trans hc)
      simp [h1, h2, ih, hk, Ne.symm hk]
    · by_cases h2 : p.1 = k₂
      · simp [h1, h2, ih, hk, Ne.symm hk]
      · simp [h1, h2, ih]

theorem setHashB_comm (m : List (String × HashPair)) (k₁ k₂ : String)
    (v₁ v₂ : Digest) (hk : k₁ ≠ k₂) :
    setHashB (setHashB m k₁ v₁) k₂ v₂ = setHashB (setHashB m k₂ v₂) k₁ v₁ := by
  induction m with
  | nil => rfl
  | cons p t ih =>
    simp only [setHashB, List.map_cons] at ih ⊢
    by_cases h1 : p.1 = k₁
    · have h2 : ¬(p.1 = k₂) := fun hc => hk (h1.symm.trans hc)
      simp [h1, h2, ih, hk, Ne.symm hk]
    · by_cases h2 : p.1 = k₂
      · simp [h1, h2, ih, hk, Ne.symm hk]
      · simp [h1, h2, ih]

theorem applyHashesA_perm {l l' : List (String × List Nat)} (h : l.Perm l') :
    (l.map Prod.fst).Nodup → ∀ m, applyHashesA l m = applyHashesA l' m := by
  induction h with
  | nil => intro _ m; rfl
  | cons f hp ih =>
    intro hnd m
    rw [applyHashesA_cons, applyHashesA_cons]
    refine ih ?_ _
    simp only [List.map_cons, List.nodup_cons] at hnd
    exact hnd.2
  | swap f g l =>
    intro hnd m
    simp only [List.map_cons, List.nodup_cons, List.mem_cons] at hnd
    have hne : g.1 ≠ f.1 := fun hc => hnd.1 (Or.inl hc)
    rw [applyHashesA_cons, applyHashesA_cons, applyHashesA_cons,
      applyHashesA_cons, setHashA_comm _ _ _ _ _ hne]
  | trans h₁ h₂ ih₁ ih₂ =>
    intro hnd m
    rw [ih₁ hnd m]
    exact ih₂ ((h₁.map Prod.fst).nodup_iff.mp hnd) m

theorem applyHashesB_perm {l l' : List (String × List Nat)} (h : l.Perm l') :
    (l.map Prod.fst).Nodup → ∀ m, applyHashesB l m = applyHashesB l' m := by
  induction h with
  | nil => intro _ m; rfl
  | cons f hp ih =>
    intro hnd m
    rw [applyHashesB_cons, applyHashesB_cons]
    refine ih ?_ _
    simp only [List.map_cons, List.nodup_cons] at hnd
    exact hnd.2
  | swap f g l =>
    intro hnd m
    simp only [List.map_cons, List.nodup_cons, List.mem_cons] at hnd
    have hne : g.1 ≠ f.1 := fun hc => hnd.1 (Or.inl hc)
    rw [applyHashesB_cons, applyHashesB_cons, applyHashesB_cons,
      applyHashesB_cons, setHashB_comm _ _ _ _ _ hne]
  | trans h₁ h₂ ih₁ ih₂ =>
    intro hnd m
    rw [ih₁ hnd m]
    exact ih₂ ((h₁.map Prod.fst).nodup_iff.mp hnd) m

theorem sorted_union_perm_eq {A A' B B' : List String}
    (hA : A.Perm A') (hB : B.Perm B') :
    List.insertionSort (fun x y : String => x ≤ y) ((A ++ B).dedup) =
      List.insertionSort (fun x y : String => x ≤ y) ((A' ++ B').dedup) := by
  refine List.eq_of_perm_of_sorted ?_ (file_names_sorted _) (file_names_sorted _)
  exact ((List.perm_insertionSort _ _).trans
    ((hA.append hB).dedup)).trans (List.perm_insertionSort _ _).symm

theorem get_file_hashes_perm {fa fa' fb fb' : List (String × List Nat)}
    (ha : fa.Perm fa') (hb : fb.Perm fb')
    (hna : (fa.map Prod.fst).Nodup) (hnb : (fb.map Prod.fst).Nodup) :
    get_file_hashes fa fb = get_file_hashes fa' fb' := by
  simp only [get_file_hashes]
  rw [sorted_union_perm_eq (ha.map Prod.fst) (hb.map Prod.fst)]
  rw [applyHashesA_perm ha hna, applyHashesB_perm hb hnb]

/-- Claim C7: the comparison is deterministic across runs — if the walker
enumerates the files of either tree in a different order (any permutation
of the same file set, with distinct relative paths as produced by a real
filesystem walk), the diff output is identical, because the merge is
keyed by relative path and the key list is sorted. -/
theorem comparison_deterministic (fa fa' fb fb' : List (String × List Nat))
    (ha : fa.Perm fa') (hb : fb.Perm fb')
    (hna : (fa.map Prod.fst).Nodup) (hnb : (fb.map Prod.fst).Nodup) :
    differ (get_file_hashes fa fb) = differ (get_file_hashes fa' fb') := by
  rw [get_file_hashes_perm ha hb hna hnb]

theorem comparison_deterministic_witness :
    List.Perm [("a", [1]), ("b", [2])] [("b", [2]), ("a", ([1] : List Nat))] ∧
    List.Perm [("c", [3])] [("c", ([3] : List Nat))] ∧
    ([("a", [1]), ("b", [2])].map (Prod.fst (β := List Nat))).Nodup ∧
    ([("c", [3])].map (Prod.fst (β := List Nat))).Nodup ∧
    differ (get_file_hashes [("a", [1]), ("b", [2])] [("c", [3])]) =
      differ (get_file_hashes [("b", [2]), ("a", [1])] [("c", [3])]) :=
  ⟨by decide, by decide, by decide, by decide,
    comparison_deterministic [("a", [1]), ("b", [2])] [("b", [2]), ("a", [1])]
      [("c", [3])] [("c", [3])] (by decide) (by decide) (by decide) (by decide)⟩
